import Mathlib

/-!
Verification of the Flowz workflow-automation core: the ordered-step pipeline
engine, the circuit breaker, the rate limiter and the resilience facade that
composes them, plus two pure functions embedded from the repository source
(the AI thread parser and the comment selector).

The pipeline engine, breaker, limiter and facade implementations live in
modules of the repository that are not part of the source snapshot (only
their callers are), so those definitions are modelled from the
specification's own description; the thread parser and comment selector are
shallow embeddings of the source files.
-/

namespace Flowz

/-! ## Definitions -/

/-- Modelled from the spec: the Step Descriptor of the pipeline engine
(`createPipeline` / `.step` in the repository's Pipeline module, which is not
under the source snapshot). A step has a diagnostic name and a unary context
transform that may fail; failure is modelled as `Except` following the spec's
design note that step failure is a result value. -/
structure StepDescriptor (Ctx : Type) where
  name : String
  transform : Ctx → Except String Ctx

/-- Modelled from the spec: the Step Result record
`{ name, success, durationMs, error }`, one per attempted step. -/
structure StepResult where
  name : String
  success : Bool
  durationMs : Nat
  error : Option String
deriving Repr, DecidableEq

/-- Modelled from the spec: the Execution Report
`{ success, results, finalData }` returned by `execute`. -/
structure ExecutionReport (Ctx : Type) where
  success : Bool
  results : List StepResult
  finalData : Option Ctx

/-- Modelled from the spec: `execute(initialContext, steps)`. Steps run
strictly in order; each failure stops iteration, records the failed Step
Result and drops `finalData`. Elapsed times are environment inputs, supplied
as the list `durs` (the duration observed for each attempted step). -/
def execute {Ctx : Type} (initial : Ctx) (steps : List (StepDescriptor Ctx))
    (durs : List Nat) : ExecutionReport Ctx :=
  match steps with
  | [] => ⟨true, [], some initial⟩
  | s :: rest =>
    match s.transform initial with
    | .ok next =>
      let rep := execute next rest durs.tail
      ⟨rep.success,
       { name := s.name, success := true, durationMs := durs.headD 0,
         error := none } :: rep.results,
       rep.finalData⟩
    | .error msg =>
      ⟨false,
       [{ name := s.name, success := false, durationMs := durs.headD 0,
          error := some msg }],
       none⟩

/-- The left-to-right fold of the step transforms over a context: the
"applying all transforms left-to-right" of the spec. -/
def runAll {Ctx : Type} (initial : Ctx) (steps : List (StepDescriptor Ctx)) :
    Except String Ctx :=
  match steps with
  | [] => .ok initial
  | s :: rest =>
    match s.transform initial with
    | .ok next => runAll next rest
    | .error msg => .error msg

/-- A concrete two-step pipeline over `Nat` contexts: the spec's end-to-end
scenario `[add1, add2]` starting from `count = 0`. -/
def demoSteps : List (StepDescriptor Nat) :=
  [⟨"add1", fun n => .ok (n + 1)⟩, ⟨"add2", fun n => .ok (n + 1)⟩]

/-- A failing step: its transform always raises "boom", as in the spec's
end-to-end failure scenario. -/
def boomStep : StepDescriptor Nat := ⟨"fail", fun _ => .error "boom"⟩

/-- A spy step that must never be reached once an earlier step failed. -/
def spyStep : StepDescriptor Nat := ⟨"spy", fun n => .ok n⟩

/-- A syntactically different but outcome-equal copy of `demoSteps` (its
transforms add on the other side). -/
def demoStepsAlt : List (StepDescriptor Nat) :=
  [⟨"add1", fun n => .ok (1 + n)⟩, ⟨"add2", fun n => .ok (1 + n)⟩]

/-- Modelled from the spec: the three breaker states Closed / Open / HalfOpen
(`createOpenAICircuitBreaker` in the repository's resilience module, which is
not under the source snapshot). -/
inductive BreakerMode
  | Closed
  | Open
  | HalfOpen
deriving DecidableEq, Repr

/-- Modelled from the spec: per-operation breaker configuration — failure
threshold, rolling interval and cooldown, supplied at construction time. -/
structure BreakerConfig where
  failureThreshold : Nat
  rollingIntervalMs : Nat
  cooldownMs : Nat
deriving Repr

/-- Modelled from the spec: the shared per-operation Circuit Breaker State
`{ state, consecutiveFailures, lastFailureAt, ... }`; `probeInFlight` records
whether the single HalfOpen probe is currently outstanding. -/
structure BreakerState where
  mode : BreakerMode
  consecutiveFailures : Nat
  lastFailureAt : Nat
  probeInFlight : Bool
deriving DecidableEq, Repr

/-- The initial (Closed, zero-failures) breaker state. -/
def initialBreaker : BreakerState :=
  { mode := .Closed, consecutiveFailures := 0, lastFailureAt := 0,
    probeInFlight := false }

/-- The admission decision taken when a call reaches the breaker: pass
through normally, pass through as the single recovery probe, or reject with
the circuit-open error.  The wrapped operation is invoked exactly when the
decision is one of the two admit forms. -/
inductive CallDecision
  | admitNormal
  | admitProbe
  | rejectOpen
deriving DecidableEq, Repr

/-- Modelled from the spec: the atomic state transition performed when a call
arrives at the breaker at time `now`.  Closed passes through; Open rejects
until the cooldown since `lastFailureAt` has elapsed and then admits a single
probe (moving to HalfOpen); HalfOpen rejects while the probe is outstanding. -/
def onCallStart (cfg : BreakerConfig) (b : BreakerState) (now : Nat) :
    CallDecision × BreakerState :=
  match b.mode with
  | .Closed => (.admitNormal, b)
  | .Open =>
    if b.lastFailureAt + cfg.cooldownMs ≤ now then
      (.admitProbe, { b with mode := .HalfOpen, probeInFlight := true })
    else
      (.rejectOpen, b)
  | .HalfOpen =>
    if b.probeInFlight then
      (.rejectOpen, b)
    else
      (.admitProbe, { b with probeInFlight := true })

/-- The consecutive-failure count after one more failure at time `now`: the
count increments when the new failure falls within the rolling interval of
the previous one (or there was none), otherwise restarts at 1. -/
def nextFailureCount (cfg : BreakerConfig) (b : BreakerState) (now : Nat) : Nat :=
  if b.consecutiveFailures = 0 ∨ now ≤ b.lastFailureAt + cfg.rollingIntervalMs
  then b.consecutiveFailures + 1
  else 1

/-- Modelled from the spec: the atomic bookkeeping transition performed when
an admitted call completes, given whether it was the HalfOpen probe and
whether it succeeded.  A successful probe closes the breaker and resets
counters; a failed probe reopens it and resets `lastFailureAt`; an ordinary
success resets the failure count; an ordinary failure counts against the
threshold and opens the breaker when the threshold is reached within the
rolling interval. -/
def onCallResult (cfg : BreakerConfig) (b : BreakerState) (now : Nat) :
    Bool → Bool → BreakerState
  | true, true =>
    { mode := .Closed, consecutiveFailures := 0, lastFailureAt := b.lastFailureAt,
      probeInFlight := false }
  | true, false =>
    { mode := .Open, consecutiveFailures := b.consecutiveFailures,
      lastFailureAt := now, probeInFlight := false }
  | false, true => { b with consecutiveFailures := 0 }
  | false, false =>
    if cfg.failureThreshold ≤ nextFailureCount cfg b now then
      { mode := .Open, consecutiveFailures := nextFailureCount cfg b now,
        lastFailureAt := now, probeInFlight := false }
    else
      { mode := .Closed, consecutiveFailures := nextFailureCount cfg b now,
        lastFailureAt := now, probeInFlight := false }

/-- The breaker state after `k` consecutive admitted-call failures, all at
time `t` (hence trivially within the rolling interval), starting from the
initial Closed state. -/
def repeatFailures (cfg : BreakerConfig) (t : Nat) : Nat → BreakerState
  | 0 => initialBreaker
  | k + 1 => onCallResult cfg (repeatFailures cfg t k) t false false

/-- A concrete Open breaker state used by the C4 witness. -/
def demoOpenBreaker : BreakerState :=
  { mode := .Open, consecutiveFailures := 3, lastFailureAt := 1000,
    probeInFlight := false }

/-- The error taxonomy of the resilience layer (spec section 7): circuit-open,
rate-limited and underlying failure are distinct error kinds. -/
inductive ProtectedError
  | circuitOpen
  | rateLimited
  | underlying (msg : String)
deriving DecidableEq, Repr

/-- Modelled from the spec: per-dependency rate-limiter configuration — the
fixed-window quota, the window length, and the queue-depth and maximum-wait
bounds (the rate-limiter module, e.g. `openaiRateLimiter` / `withRateLimit`,
is not under the source snapshot). -/
structure LimiterConfig where
  windowLimit : Nat
  windowMs : Nat
  maxQueueDepth : Nat
  maxWaitMs : Nat
deriving Repr

/-- A caller waiting for quota: its identifier and arrival time. -/
structure Waiter where
  id : Nat
  arrivedAt : Nat
deriving DecidableEq, Repr

/-- Modelled from the spec: the Rate Limiter State
`{ windowStart, count, queue of waiters }` (the limit lives in the config). -/
structure LimiterState where
  windowStart : Nat
  count : Nat
  queue : List Waiter
deriving DecidableEq, Repr

/-- The initial, empty-window limiter state. -/
def initialLimiter : LimiterState := { windowStart := 0, count := 0, queue := [] }

/-- What the limiter did with a caller: ran it within the current window,
queued it, or refused it with the rate-limited error. -/
inductive LimiterOutput
  | ran (id : Nat)
  | queued (id : Nat)
  | rateLimited (id : Nat)
deriving DecidableEq, Repr

/-- Modelled from the spec: a call arriving at the limiter.  Under quota with
an empty queue it runs immediately; when the window is full (or others are
already waiting) it is appended to the FIFO queue, unless the queue bound is
exceeded, in which case it fails with the rate-limited error. -/
def arrive (cfg : LimiterConfig) (s : LimiterState) (w : Waiter) :
    LimiterState × LimiterOutput :=
  if s.count < cfg.windowLimit ∧ s.queue = [] then
    ({ s with count := s.count + 1 }, .ran w.id)
  else if s.queue.length < cfg.maxQueueDepth then
    ({ s with queue := s.queue ++ [w] }, .queued w.id)
  else
    (s, .rateLimited w.id)

/-- Whether a waiter's wait has exceeded the configured maximum at `now`. -/
def timedOut (cfg : LimiterConfig) (now : Nat) (w : Waiter) : Bool :=
  decide (cfg.maxWaitMs < now - w.arrivedAt)

/-- The waiters still eligible to run at `now` (not timed out), in arrival
order. -/
def liveQueue (cfg : LimiterConfig) (s : LimiterState) (now : Nat) : List Waiter :=
  s.queue.filter (fun w => !timedOut cfg now w)

/-- Modelled from the spec: the window rolling over at time `now`.  Waiters
whose wait exceeded the maximum receive the rate-limited error; of the rest
the first `windowLimit` run, in arrival order, and become the new window's
count; the remainder stay queued. -/
def rollWindow (cfg : LimiterConfig) (s : LimiterState) (now : Nat) :
    LimiterState × List LimiterOutput :=
  let live := liveQueue cfg s now
  let served := live.take cfg.windowLimit
  ({ windowStart := now, count := served.length, queue := live.drop cfg.windowLimit },
   (s.queue.filter (timedOut cfg now)).map (fun w => .rateLimited w.id) ++
     served.map (fun w => .ran w.id))

/-- An event at the limiter: a caller arriving, or the window rolling over. -/
inductive LimiterEvent
  | arrival (w : Waiter)
  | windowRoll (now : Nat)

/-- One limiter transition: the new state and the outputs it produced. -/
def limiterStep (cfg : LimiterConfig) (s : LimiterState) :
    LimiterEvent → LimiterState × List LimiterOutput
  | .arrival w => ((arrive cfg s w).1, [(arrive cfg s w).2])
  | .windowRoll now => rollWindow cfg s now

/-- The limiter state after a sequence of events. -/
def limiterRun (cfg : LimiterConfig) (s : LimiterState) :
    List LimiterEvent → LimiterState
  | [] => s
  | e :: es => limiterRun cfg (limiterStep cfg s e).1 es

/-- The identifiers of the callers an output list actually ran, in order. -/
def ranIds : List LimiterOutput → List Nat
  | [] => []
  | .ran i :: rest => i :: ranIds rest
  | .queued _ :: rest => ranIds rest
  | .rateLimited _ :: rest => ranIds rest

/-- A full limiter state (window and queue both at their bounds) used by the
C5 and C6 witnesses. -/
def demoFullLimiter : LimiterState :=
  { windowStart := 0, count := 3, queue := [⟨7, 0⟩] }

/-- A limiter state whose queue is at its bound, for the C6 witness. -/
def demoDepthLimiter : LimiterState :=
  { windowStart := 0, count := 3, queue := [⟨7, 0⟩, ⟨8, 0⟩] }

/-- The observable phases of one protected call, in the order they happen. -/
inductive Phase
  | limiterCheck
  | breakerCheck
  | operationRun
deriving DecidableEq, Repr

/-- Modelled from the spec and the composition visible in the source
(`createOpenAICircuitBreaker(fn)` then `.fire`): the breaker consults its
state, and only on an admit decision runs the operation and records the
outcome. Returns the result, the trace of phases, and the new breaker
state. -/
def breakerFire {α : Type} (bcfg : BreakerConfig) (bs : BreakerState) (now : Nat)
    (op : Except String α) : Except ProtectedError α × List Phase × BreakerState :=
  match onCallStart bcfg bs now with
  | (.rejectOpen, bs') => (.error .circuitOpen, [.breakerCheck], bs')
  | (.admitNormal, bs') =>
    match op with
    | .ok a =>
      (.ok a, [.breakerCheck, .operationRun], onCallResult bcfg bs' now false true)
    | .error m =>
      (.error (.underlying m), [.breakerCheck, .operationRun],
        onCallResult bcfg bs' now false false)
  | (.admitProbe, bs') =>
    match op with
    | .ok a =>
      (.ok a, [.breakerCheck, .operationRun], onCallResult bcfg bs' now true true)
    | .error m =>
      (.error (.underlying m), [.breakerCheck, .operationRun],
        onCallResult bcfg bs' now true false)

/-- Modelled from the spec and the source wiring
(`withRateLimit((...) => breaker.fire(...), openaiRateLimiter)`): the rate
limiter is consulted first; only a caller it does not refuse reaches the
circuit breaker, and only a breaker-admitted caller reaches the operation. -/
def protectedCall {α : Type} (lcfg : LimiterConfig) (bcfg : BreakerConfig)
    (ls : LimiterState) (bs : BreakerState) (w : Waiter) (now : Nat)
    (op : Except String α) :
    Except ProtectedError α × List Phase × LimiterState × BreakerState :=
  match arrive lcfg ls w with
  | (ls', .rateLimited _) => (.error .rateLimited, [.limiterCheck], ls', bs)
  | (ls', _) =>
    let r := breakerFire bcfg bs now op
    (r.1, .limiterCheck :: r.2.1, ls', r.2.2)

/-- A YouTube comment, embedded from the `Comment` interface of the
reply-to-YouTube-comments workflow with the fields `calculateCommentScore`
and `selectTopComments` read: the text (as a character list), the like count,
and the publication timestamp in milliseconds (the source stores an ISO
string and converts via `Date`; the embedding keeps the timestamp). -/
structure Comment where
  id : Nat
  text : List Char
  likeCount : Nat
  publishedAtMs : Int
deriving DecidableEq, Repr

/-- One hour in milliseconds. -/
def hourMs : Int := 3600000

/-- Embedded from `calculateCommentScore` in the workflow source:
`likes * 3 + recencyBonus + lengthBonus`, where the recency bonus is 50 under
24 h, 20 under 72 h, 5 under 168 h, and the length bonus is 10 for texts of
100–500 characters and 25 above 500.  The source compares
`ageInHours = ageMs / 3600000` (exact real division) against 24/72/168; the
embedding compares `ageMs` against the same thresholds in milliseconds, which
is equivalent. `Date.now()` is passed in as `now`. -/
def calculateCommentScore (now : Int) (c : Comment) : Int :=
  let ageMs : Int := now - c.publishedAtMs
  let recencyBonus : Int :=
    if ageMs < 24 * hourMs then 50
    else if ageMs < 72 * hourMs then 20
    else if ageMs < 168 * hourMs then 5
    else 0
  let textLength := c.text.length
  let lengthBonus : Int :=
    if 100 ≤ textLength ∧ textLength ≤ 500 then 10
    else if 500 < textLength then 25
    else 0
  (c.likeCount : Int) * 3 + recencyBonus + lengthBonus

/-- The descending-score comparison used by the sort: the source sorts with
the comparator `(a, b) => b.score - a.score`. -/
def scoreGe (now : Int) (a b : Comment) : Bool :=
  decide (calculateCommentScore now b ≤ calculateCommentScore now a)

/-- Embedded from `selectTopComments` in the workflow source: empty input
yields `[]`; otherwise the comments are sorted by score descending (a stable
sort, as JavaScript's `Array.prototype.sort`) and the first `maxCount` are
returned. -/
def selectTopComments (now : Int) (comments : List Comment) (maxCount : Nat) :
    List Comment :=
  if comments.isEmpty then []
  else (comments.mergeSort (scoreGe now)).take maxCount

/-- The whitespace characters relevant to the AI responses being parsed: the
embedding of JavaScript's `\s` / `trim()` whitespace restricted to the ASCII
space, tab, newline and carriage return (the wider Unicode space characters
play no role in the claims). -/
def isJsWs (c : Char) : Bool :=
  c == ' ' || c == '\t' || c == '\n' || c == '\r'

/-- Drop the longest suffix whose characters satisfy `p`. -/
def dropEndWhile (p : Char → Bool) (l : List Char) : List Char :=
  (l.reverse.dropWhile p).reverse

/-- Embedding of JavaScript's `String.prototype.trim`: strip leading and
trailing whitespace. -/
def jsTrim (l : List Char) : List Char :=
  dropEndWhile isJsWs (l.dropWhile isJsWs)

/-- Worker for `splitBy`: scan left to right; where `matcher` recognises a
separator it returns the remainder after it, closing the current piece.  The
fuel argument bounds the recursion; every matcher used here consumes at least
one character, so the initial fuel of `splitBy` is never exhausted. -/
def splitByGo (matcher : List Char → Option (List Char)) :
    Nat → List Char → List Char → List (List Char)
  | 0, cs, acc => [acc.reverse ++ cs]
  | _ + 1, [], acc => [acc.reverse]
  | fuel + 1, c :: cs, acc =>
    match matcher (c :: cs) with
    | some rest => acc.reverse :: splitByGo matcher fuel rest []
    | none => splitByGo matcher fuel cs (c :: acc)

/-- Split a character list at every separator occurrence recognised by
`matcher`, embedding JavaScript's `String.prototype.split` with a regular
expression: the scan tries each position left to right, as the regex engine's
leftmost-match rule does. -/
def splitBy (matcher : List Char → Option (List Char)) (cs : List Char) :
    List (List Char) :=
  splitByGo matcher (cs.length + 1) cs []

/-- Embedded from strategy 1 of `generateThreadInternal`: the separator
regex `\s*---\s*` — optional whitespace, three dashes, optional
whitespace. -/
def matchDashes (cs : List Char) : Option (List Char) :=
  match cs.dropWhile isJsWs with
  | '-' :: '-' :: '-' :: rest => some (rest.dropWhile isJsWs)
  | _ => none

/-- Embedded from strategy 2 of `generateThreadInternal`: the separator
regex `\n\n+` — a run of two or more newlines (greedy). -/
def matchNlRun : List Char → Option (List Char)
  | '\n' :: '\n' :: rest => some (rest.dropWhile (· == '\n'))
  | _ => none

/-- Embedded from strategy 3 of `generateThreadInternal`: the anchored
pattern `^\d+\.\s` — one or more digits, a period, one whitespace
character; returns the remainder after the matched prefix (what
`.replace(pattern, '')` keeps). -/
def matchLeadingNum (cs : List Char) : Option (List Char) :=
  match cs.dropWhile Char.isDigit with
  | p :: w :: r =>
    if (cs.takeWhile Char.isDigit).isEmpty then none
    else if p == '.' && isJsWs w then some r else none
  | _ => none

/-- Embedded from strategy 3 of `generateThreadInternal`: the separator
regex `\n\d+\.\s` — a newline followed by a numbered-list marker. -/
def matchNlNum : List Char → Option (List Char)
  | '\n' :: rest => matchLeadingNum rest
  | _ => none

/-- Embedding of `result.includes('---')`. -/
def hasTripleDash : List Char → Bool
  | '-' :: '-' :: '-' :: _ => true
  | _ :: rest => hasTripleDash rest
  | [] => false

/-- Embedding of `result.includes('\n\n')`. -/
def hasDoubleNl : List Char → Bool
  | '\n' :: '\n' :: _ => true
  | _ :: rest => hasDoubleNl rest
  | [] => false

/-- Embedded from `generateThreadInternal`: the post-processing every split
strategy applies to its pieces —
`.map(tweet => tweet.trim()).filter(tweet => tweet.length > 0 && tweet.length <= 280)`. -/
def cleanPieces (ps : List (List Char)) : List (List Char) :=
  (ps.map jsTrim).filter (fun t => decide (0 < t.length) && decide (t.length ≤ 280))

/-- Embedded from strategy 3 of `generateThreadInternal`: if the first
parsed tweet still starts with a `\d+\.\s` marker, remove it and trim
(`tweets[0] = tweets[0].replace(/^\d+\.\s/, '').trim()`). -/
def fixHead : List (List Char) → List (List Char)
  | [] => []
  | t :: ts =>
    match matchLeadingNum t with
    | some r => jsTrim r :: ts
    | none => t :: ts

/-- Strategy 1 of `generateThreadInternal`: when the response contains
`---`, split on the dash separator and clean the pieces. -/
def parseStage1 (result : List Char) : List (List Char) :=
  if hasTripleDash result then cleanPieces (splitBy matchDashes result) else []

/-- Strategy 2 of `generateThreadInternal`: when strategy 1 produced
nothing and the response contains a blank line, split on newline runs. -/
def parseStage2 (result : List Char) : List (List Char) :=
  if (parseStage1 result).isEmpty && hasDoubleNl result then
    cleanPieces (splitBy matchNlRun result)
  else parseStage1 result

/-- Strategy 3 of `generateThreadInternal`: when nothing was produced yet
and the response starts with a numbered-list marker, split on the markers and
strip the leading marker from the first piece. -/
def parseStage3 (result : List Char) : List (List Char) :=
  if (parseStage2 result).isEmpty && (matchLeadingNum result).isSome then
    fixHead (cleanPieces (splitBy matchNlNum result))
  else parseStage2 result

/-- Strategy 4 of `generateThreadInternal`: last resort — when the trimmed
response itself is non-empty and within 280 characters, it becomes the single
tweet. -/
def parseStage4 (result : List Char) : List (List Char) :=
  if (parseStage3 result).isEmpty && !(jsTrim result).isEmpty
      && decide ((jsTrim result).length ≤ 280) then
    [jsTrim result]
  else parseStage3 result

/-- Embedded from `generateThreadInternal` in the OpenAI client source: the
parsing of an arbitrary AI completion `result` into at most `threadLength`
tweets (`tweets.slice(0, threadLength)` after the four strategies). -/
def parseThread (result : List Char) (threadLength : Nat) : List (List Char) :=
  (parseStage4 result).take threadLength

/-- The shape of every tweet the parser can emit: the trim of some string,
non-empty, and at most 280 characters long. -/
def trimmedTweet (t : List Char) : Prop :=
  (∃ p, t = jsTrim p) ∧ t ≠ [] ∧ t.length ≤ 280

/-! ## Theorems -/

/-- Unfolding equation for `execute` at a succeeding head step. -/
theorem execute_cons_ok {Ctx : Type} (initial next : Ctx) (s : StepDescriptor Ctx)
    (rest : List (StepDescriptor Ctx)) (durs : List Nat)
    (htr : s.transform initial = .ok next) :
    execute initial (s :: rest) durs =
      ⟨(execute next rest durs.tail).success,
       ⟨s.name, true, durs.headD 0, none⟩ :: (execute next rest durs.tail).results,
       (execute next rest durs.tail).finalData⟩ := by
  simp [execute, htr]

/-- Unfolding equation for `execute` at a failing head step. -/
theorem execute_cons_err {Ctx : Type} (initial : Ctx) (msg : String)
    (s : StepDescriptor Ctx) (rest : List (StepDescriptor Ctx)) (durs : List Nat)
    (htr : s.transform initial = .error msg) :
    execute initial (s :: rest) durs =
      ⟨false, [⟨s.name, false, durs.headD 0, some msg⟩], none⟩ := by
  simp [execute, htr]

/-- `getLast?` of a cons with non-empty tail is the tail's `getLast?`. -/
theorem getLast?_cons_of_ne_nil {α : Type} (a : α) (l : List α) (h : l ≠ []) :
    (a :: l).getLast? = l.getLast? := by
  cases l with
  | nil => exact absurd rfl h
  | cons b t => exact List.getLast?_cons_cons

/-- Helper: the all-success behaviour of `execute`, without the non-emptiness
side condition (the property also holds for the empty step list). -/
theorem execute_ok_of_runAll_ok {Ctx : Type} (initial final : Ctx)
    (steps : List (StepDescriptor Ctx)) (durs : List Nat)
    (h : runAll initial steps = .ok final) :
    (execute initial steps durs).success = true ∧
    (execute initial steps durs).results.length = steps.length ∧
    (∀ r ∈ (execute initial steps durs).results, r.success = true) ∧
    (execute initial steps durs).finalData = some final := by
  induction steps generalizing initial durs with
  | nil =>
    simp only [runAll, Except.ok.injEq] at h
    subst h
    simp [execute]
  | cons s rest ih =>
    simp only [runAll] at h
    cases htr : s.transform initial with
    | ok next =>
      rw [htr] at h
      obtain ⟨h1, h2, h3, h4⟩ := ih next durs.tail h
      rw [execute_cons_ok initial next s rest durs htr]
      refine ⟨h1, by simpa using h2, ?_, h4⟩
      intro r hr
      rcases List.mem_cons.mp hr with hr | hr
      · simp [hr]
      · exact h3 r hr
    | error msg =>
      rw [htr] at h
      exact absurd h (by simp)

/-- C1: for every initial context and non-empty step list whose transforms all
succeed (i.e. the left-to-right fold of the transforms over the initial
context is `.ok final`), `execute` returns `success = true`, one Step Result
per step (all marked successful) and `finalData` equal to that fold. -/
theorem execute_all_steps_succeed {Ctx : Type} (initial final : Ctx)
    (steps : List (StepDescriptor Ctx)) (durs : List Nat)
    (_hne : steps ≠ [])
    (h : runAll initial steps = .ok final) :
    (execute initial steps durs).success = true ∧
    (execute initial steps durs).results.length = steps.length ∧
    (∀ r ∈ (execute initial steps durs).results, r.success = true) ∧
    (execute initial steps durs).finalData = some final :=
  execute_ok_of_runAll_ok initial final steps durs h

/-- Witness for C1: the two-step all-success pipeline from the spec's
end-to-end scenario, executed from initial context `0`. -/
theorem execute_all_steps_succeed_witness :
    (execute 0 demoSteps []).success = true ∧
    (execute 0 demoSteps []).results.length = demoSteps.length ∧
    (∀ r ∈ (execute 0 demoSteps []).results, r.success = true) ∧
    (execute 0 demoSteps []).finalData = some 2 :=
  execute_all_steps_succeed 0 2 demoSteps [] (List.cons_ne_nil _ _) rfl

/-- C2: if the steps before `f` all succeed (their fold over the initial
context is `.ok mid`) and `f`'s transform fails on `mid` with `msg`, then
`execute` returns `success = false`, exactly `pre.length + 1` Step Results of
which all but the last are successful, a last result that is failed and
carries `msg`, no `finalData`; and the report does not depend on the steps
after `f` (so no later transform is ever invoked). -/
theorem execute_first_failure {Ctx : Type} (initial mid : Ctx) (msg : String)
    (pre post : List (StepDescriptor Ctx)) (f : StepDescriptor Ctx) (durs : List Nat)
    (hpre : runAll initial pre = .ok mid)
    (hf : f.transform mid = .error msg) :
    (execute initial (pre ++ f :: post) durs).success = false ∧
    (execute initial (pre ++ f :: post) durs).results.length = pre.length + 1 ∧
    (∀ r ∈ (execute initial (pre ++ f :: post) durs).results.dropLast,
      r.success = true) ∧
    (∃ r, (execute initial (pre ++ f :: post) durs).results.getLast? = some r ∧
      r.success = false ∧ r.error = some msg) ∧
    (execute initial (pre ++ f :: post) durs).finalData = none ∧
    (∀ post', execute initial (pre ++ f :: post) durs
      = execute initial (pre ++ f :: post') durs) := by
  induction pre generalizing initial durs with
  | nil =>
    simp only [runAll, Except.ok.injEq] at hpre
    subst hpre
    rw [List.nil_append, execute_cons_err initial msg f post durs hf]
    refine ⟨rfl, rfl, by simp, ⟨_, rfl, rfl, rfl⟩, rfl, ?_⟩
    intro post'
    rw [List.nil_append, execute_cons_err initial msg f post' durs hf]
  | cons s pre' ih =>
    simp only [runAll] at hpre
    cases htr : s.transform initial with
    | ok next =>
      rw [htr] at hpre
      obtain ⟨h1, h2, h3, h4, h5, h6⟩ := ih next durs.tail hpre
      rw [List.cons_append,
        execute_cons_ok initial next s (pre' ++ f :: post) durs htr]
      have hne : (execute next (pre' ++ f :: post) durs.tail).results ≠ [] := by
        intro hemp
        rw [hemp] at h2
        exact absurd h2.symm (by simp)
      refine ⟨h1, ?_, ?_, ?_, h5, ?_⟩
      · simpa using h2
      · intro r hr
        rw [List.dropLast_cons_of_ne_nil hne] at hr
        rcases List.mem_cons.mp hr with hr | hr
        · simp [hr]
        · exact h3 r hr
      · obtain ⟨r, hr1, hr2, hr3⟩ := h4
        exact ⟨r, by rw [getLast?_cons_of_ne_nil _ _ hne]; exact hr1, hr2, hr3⟩
      · intro post'
        rw [List.cons_append,
          execute_cons_ok initial next s (pre' ++ f :: post') durs htr, h6 post']
    | error m =>
      rw [htr] at hpre
      exact absurd hpre (by simp)

/-- Witness for C2: the spec's end-to-end failure scenario
`[add1, add2, fail]` with a trailing spy step, from initial context `0`. -/
theorem execute_first_failure_witness :
    (execute 0 (demoSteps ++ boomStep :: [spyStep]) []).success = false ∧
    (execute 0 (demoSteps ++ boomStep :: [spyStep]) []).results.length
      = demoSteps.length + 1 ∧
    (∀ r ∈ (execute 0 (demoSteps ++ boomStep :: [spyStep]) []).results.dropLast,
      r.success = true) ∧
    (∃ r, (execute 0 (demoSteps ++ boomStep :: [spyStep]) []).results.getLast?
        = some r ∧ r.success = false ∧ r.error = some "boom") ∧
    (execute 0 (demoSteps ++ boomStep :: [spyStep]) []).finalData = none ∧
    (∀ post', execute 0 (demoSteps ++ boomStep :: [spyStep]) []
      = execute 0 (demoSteps ++ boomStep :: post') []) :=
  execute_first_failure 0 2 "boom" demoSteps [spyStep] boomStep [] rfl rfl

/-- C8: the pipeline engine is deterministic. Two step lists that agree
pointwise (same names, and transforms producing the same outcome on every
context), run from the same initial context with the same observed step
durations, produce identical Execution Reports: the report is a function of
the initial context and the sequence of step outcomes alone. -/
theorem execute_deterministic {Ctx : Type} (initial : Ctx)
    (steps₁ steps₂ : List (StepDescriptor Ctx)) (durs : List Nat)
    (hagree : List.Forall₂
      (fun s t => s.name = t.name ∧ ∀ c, s.transform c = t.transform c)
      steps₁ steps₂) :
    execute initial steps₁ durs = execute initial steps₂ durs := by
  induction hagree generalizing initial durs with
  | nil => rfl
  | @cons s t l₁ l₂ h htail ih =>
    obtain ⟨hname, htrans⟩ := h
    cases htr : s.transform initial with
    | ok next =>
      have htr' : t.transform initial = .ok next := by rw [← htrans]; exact htr
      rw [execute_cons_ok initial next s l₁ durs htr,
          execute_cons_ok initial next t l₂ durs htr', ih next durs.tail, hname]
    | error m =>
      have htr' : t.transform initial = .error m := by rw [← htrans]; exact htr
      rw [execute_cons_err initial m s l₁ durs htr,
          execute_cons_err initial m t l₂ durs htr', hname]

/-- Witness for C8: `demoSteps` and `demoStepsAlt` have the same outcomes at
every context, so their reports coincide at initial context `0`. -/
theorem execute_deterministic_witness :
    execute 0 demoSteps [] = execute 0 demoStepsAlt [] :=
  execute_deterministic 0 demoSteps demoStepsAlt []
    (List.Forall₂.cons
      ⟨rfl, fun c => by simp [Nat.add_comm]⟩
      (List.Forall₂.cons ⟨rfl, fun c => by simp [Nat.add_comm]⟩ List.Forall₂.nil))

/-- A failure inside the rolling interval increments the consecutive count. -/
theorem nextFailureCount_within (cfg : BreakerConfig) (b : BreakerState)
    (now : Nat)
    (hwin : b.consecutiveFailures = 0 ∨
      now ≤ b.lastFailureAt + cfg.rollingIntervalMs) :
    nextFailureCount cfg b now = b.consecutiveFailures + 1 := by
  unfold nextFailureCount
  rw [if_pos hwin]

/-- Evaluation of `onCallResult` for an ordinary failure inside the rolling
interval. -/
theorem onCallResult_fail_within (cfg : BreakerConfig) (b : BreakerState)
    (now : Nat)
    (hwin : b.consecutiveFailures = 0 ∨
      now ≤ b.lastFailureAt + cfg.rollingIntervalMs) :
    onCallResult cfg b now false false =
      if cfg.failureThreshold ≤ b.consecutiveFailures + 1 then
        { mode := .Open, consecutiveFailures := b.consecutiveFailures + 1,
          lastFailureAt := now, probeInFlight := false }
      else
        { mode := .Closed, consecutiveFailures := b.consecutiveFailures + 1,
          lastFailureAt := now, probeInFlight := false } := by
  simp only [onCallResult, nextFailureCount_within cfg b now hwin]

/-- Below the threshold the breaker stays Closed and counts failures. -/
theorem repeatFailures_lt (cfg : BreakerConfig) (t k : Nat)
    (hk : k < cfg.failureThreshold) :
    repeatFailures cfg t k =
      { mode := .Closed, consecutiveFailures := k,
        lastFailureAt := if k = 0 then 0 else t, probeInFlight := false } := by
  induction k with
  | zero => rfl
  | succ k ih =>
    have hk' : k < cfg.failureThreshold := Nat.lt_of_succ_lt hk
    rw [repeatFailures, ih hk']
    rw [onCallResult_fail_within cfg _ t (by
      rcases Nat.eq_zero_or_pos k with h0 | h0
      · exact Or.inl h0
      · right
        show t ≤ (if k = 0 then 0 else t) + cfg.rollingIntervalMs
        rw [if_neg (by omega)]
        exact Nat.le_add_right _ _)]
    rw [if_neg (by simp only []; omega)]
    simp

/-- At the threshold the breaker transitions to Open and records the failure
time. -/
theorem repeatFailures_threshold (cfg : BreakerConfig) (t : Nat)
    (hthr : 1 ≤ cfg.failureThreshold) :
    repeatFailures cfg t cfg.failureThreshold =
      { mode := .Open, consecutiveFailures := cfg.failureThreshold,
        lastFailureAt := t, probeInFlight := false } := by
  obtain ⟨m, hm⟩ : ∃ m, cfg.failureThreshold = m + 1 :=
    ⟨cfg.failureThreshold - 1, by omega⟩
  rw [hm, repeatFailures, repeatFailures_lt cfg t m (by omega)]
  rw [onCallResult_fail_within cfg _ t (by
    rcases Nat.eq_zero_or_pos m with h0 | h0
    · exact Or.inl h0
    · right
      show t ≤ (if m = 0 then 0 else t) + cfg.rollingIntervalMs
      rw [if_neg (by omega)]
      exact Nat.le_add_right _ _)]
  rw [if_pos (by simp only []; omega)]

/-- Evaluation of `onCallStart` on an Open state. -/
theorem onCallStart_open (cfg : BreakerConfig) (cf lfa : Nat) (pif : Bool)
    (now : Nat) :
    onCallStart cfg ⟨.Open, cf, lfa, pif⟩ now =
      if lfa + cfg.cooldownMs ≤ now then
        (.admitProbe, ⟨.HalfOpen, cf, lfa, true⟩)
      else
        (.rejectOpen, ⟨.Open, cf, lfa, pif⟩) := rfl

/-- Evaluation of `onCallStart` on a HalfOpen state. -/
theorem onCallStart_halfOpen (cfg : BreakerConfig) (cf lfa : Nat) (pif : Bool)
    (now : Nat) :
    onCallStart cfg ⟨.HalfOpen, cf, lfa, pif⟩ now =
      if pif then
        (.rejectOpen, ⟨.HalfOpen, cf, lfa, pif⟩)
      else
        (.admitProbe, ⟨.HalfOpen, cf, lfa, true⟩) := rfl

/-- C3: after `failureThreshold` consecutive failures within the rolling
interval (all at time `t`), the breaker is Open, and a call arriving at any
time `t'` before the cooldown since `lastFailureAt = t` has elapsed is
rejected with the circuit-open decision and leaves the state unchanged — in
particular the wrapped operation is never invoked, since invocation happens
only on an admit decision. -/
theorem breaker_opens_after_threshold (cfg : BreakerConfig) (t t' : Nat)
    (hthr : 1 ≤ cfg.failureThreshold)
    (hcool : t' < t + cfg.cooldownMs) :
    (repeatFailures cfg t cfg.failureThreshold).mode = .Open ∧
    onCallStart cfg (repeatFailures cfg t cfg.failureThreshold) t' =
      (.rejectOpen, repeatFailures cfg t cfg.failureThreshold) := by
  rw [repeatFailures_threshold cfg t hthr]
  refine ⟨rfl, ?_⟩
  rw [onCallStart_open, if_neg (by omega)]

/-- Witness for C3: threshold 3, failures at time 1000, cooldown 30000, call
at time 5000 rejected. -/
theorem breaker_opens_after_threshold_witness :
    (repeatFailures ⟨3, 60000, 30000⟩ 1000 3).mode = .Open ∧
    onCallStart ⟨3, 60000, 30000⟩ (repeatFailures ⟨3, 60000, 30000⟩ 1000 3) 5000 =
      (.rejectOpen, repeatFailures ⟨3, 60000, 30000⟩ 1000 3) :=
  breaker_opens_after_threshold ⟨3, 60000, 30000⟩ 1000 5000 (by decide) (by decide)

/-- C4: single-probe invariant.  Once the cooldown since `lastFailureAt` has
elapsed on an Open breaker, the next call is admitted as the probe and the
state moves to HalfOpen with the probe marked in flight; any call arriving
while that probe is outstanding — in particular a second concurrent caller on
the state the probe left behind — is rejected with the circuit-open decision
without the underlying operation being invoked for it, so at most one probe
is ever in flight. -/
theorem breaker_single_probe (cfg : BreakerConfig) (b : BreakerState)
    (now now' : Nat)
    (hmode : b.mode = .Open)
    (hcool : b.lastFailureAt + cfg.cooldownMs ≤ now) :
    (onCallStart cfg b now).1 = .admitProbe ∧
    (onCallStart cfg b now).2.mode = .HalfOpen ∧
    (onCallStart cfg b now).2.probeInFlight = true ∧
    onCallStart cfg (onCallStart cfg b now).2 now' =
      (.rejectOpen, (onCallStart cfg b now).2) ∧
    (∀ (b' : BreakerState) (t : Nat), b'.mode = .HalfOpen →
      b'.probeInFlight = true → onCallStart cfg b' t = (.rejectOpen, b')) := by
  have hreject : ∀ (b' : BreakerState) (t : Nat), b'.mode = .HalfOpen →
      b'.probeInFlight = true → onCallStart cfg b' t = (.rejectOpen, b') := by
    intro b' t hm hp
    obtain ⟨mo, cf, lfa, pif⟩ := b'
    simp only at hm hp
    subst hm
    subst hp
    rw [onCallStart_halfOpen, if_pos rfl]
  have hstart : onCallStart cfg b now =
      (.admitProbe, { b with mode := .HalfOpen, probeInFlight := true }) := by
    obtain ⟨mo, cf, lfa, pif⟩ := b
    simp only at hmode hcool
    subst hmode
    rw [onCallStart_open, if_pos hcool]
  rw [hstart]
  exact ⟨rfl, rfl, rfl, hreject _ now' rfl rfl, hreject⟩

/-- Witness for C4: cooldown elapsed at time 40000; the probe is admitted and
a second caller at 40001 is rejected. -/
theorem breaker_single_probe_witness :
    (onCallStart ⟨3, 60000, 30000⟩ demoOpenBreaker 40000).1 = .admitProbe ∧
    (onCallStart ⟨3, 60000, 30000⟩ demoOpenBreaker 40000).2.mode = .HalfOpen ∧
    (onCallStart ⟨3, 60000, 30000⟩ demoOpenBreaker 40000).2.probeInFlight = true ∧
    onCallStart ⟨3, 60000, 30000⟩
        (onCallStart ⟨3, 60000, 30000⟩ demoOpenBreaker 40000).2 40001 =
      (.rejectOpen, (onCallStart ⟨3, 60000, 30000⟩ demoOpenBreaker 40000).2) ∧
    (∀ (b' : BreakerState) (t : Nat), b'.mode = .HalfOpen →
      b'.probeInFlight = true →
      onCallStart ⟨3, 60000, 30000⟩ b' t = (.rejectOpen, b')) :=
  breaker_single_probe ⟨3, 60000, 30000⟩ demoOpenBreaker 40000 40001 rfl (by decide)

/-- `ranIds` of pure run outputs. -/
theorem ranIds_map_ran (l : List Waiter) :
    ranIds (l.map (fun w => LimiterOutput.ran w.id)) = l.map Waiter.id := by
  induction l with
  | nil => rfl
  | cons a t ih => simp [ranIds, ih]

/-- `ranIds` of pure rejection outputs. -/
theorem ranIds_map_rateLimited (l : List Waiter) :
    ranIds (l.map (fun w => LimiterOutput.rateLimited w.id)) = [] := by
  induction l with
  | nil => rfl
  | cons a t ih => simp [ranIds, ih]

/-- `ranIds` distributes over append. -/
theorem ranIds_append (a b : List LimiterOutput) :
    ranIds (a ++ b) = ranIds a ++ ranIds b := by
  induction a with
  | nil => rfl
  | cons o t ih => cases o <;> simp [ranIds, ih]

/-- Every limiter transition preserves `count ≤ windowLimit`. -/
theorem limiterStep_count_le (cfg : LimiterConfig) (s : LimiterState)
    (e : LimiterEvent) (hs : s.count ≤ cfg.windowLimit) :
    (limiterStep cfg s e).1.count ≤ cfg.windowLimit := by
  cases e with
  | arrival w =>
    simp only [limiterStep, arrive]
    split
    · next h => exact h.1
    · split
      · exact hs
      · exact hs
  | windowRoll now =>
    simp only [limiterStep, rollWindow]
    rw [List.length_take]
    exact Nat.min_le_left _ _

/-- In every reachable limiter state the window count is within the quota. -/
theorem limiterRun_count_le (cfg : LimiterConfig) (events : List LimiterEvent) :
    (limiterRun cfg initialLimiter events).count ≤ cfg.windowLimit := by
  have general : ∀ (es : List LimiterEvent) (s : LimiterState),
      s.count ≤ cfg.windowLimit →
      (limiterRun cfg s es).count ≤ cfg.windowLimit := by
    intro es
    induction es with
    | nil => intro s hs; exact hs
    | cons e es ih =>
      intro s hs
      exact ih _ (limiterStep_count_le cfg s e hs)
  exact general events initialLimiter (Nat.zero_le _)

/-- C5: the rate-limiter invariants.  (1) In every state reachable from the
initial state the count of operations run within the current window never
exceeds `windowLimit`; (2) a caller arriving when the window is full is
queued at the back of the FIFO queue, not dropped, as long as the queue bound
is not exceeded; (3) when capacity frees up at a window roll, the callers
that run are exactly a prefix of the non-timed-out queue — the earliest
arrivals, in their original arrival order — and the rest remain queued in
order. -/
theorem limiter_window_invariant (cfg : LimiterConfig) (s : LimiterState)
    (w : Waiter) (events : List LimiterEvent)
    (hfull : s.count = cfg.windowLimit)
    (hq : s.queue.length < cfg.maxQueueDepth) :
    (limiterRun cfg initialLimiter events).count ≤ cfg.windowLimit ∧
    arrive cfg s w = ({ s with queue := s.queue ++ [w] }, .queued w.id) ∧
    (∀ (s' : LimiterState) (now : Nat),
      (ranIds (rollWindow cfg s' now).2).IsPrefix
        ((liveQueue cfg s' now).map Waiter.id) ∧
      (rollWindow cfg s' now).1.queue
        = (liveQueue cfg s' now).drop cfg.windowLimit) := by
  refine ⟨limiterRun_count_le cfg events, ?_, ?_⟩
  · unfold arrive
    rw [if_neg (by omega), if_pos hq]
  · intro s' now
    constructor
    · show ranIds ((s'.queue.filter (timedOut cfg now)).map
          (fun w => LimiterOutput.rateLimited w.id) ++
        ((liveQueue cfg s' now).take cfg.windowLimit).map
          (fun w => LimiterOutput.ran w.id)) <+:
        (liveQueue cfg s' now).map Waiter.id
      rw [ranIds_append, ranIds_map_rateLimited, ranIds_map_ran, List.nil_append]
      exact (List.take_prefix _ _).map _
    · rfl

/-- Witness for C5: quota 3, queue bound 2; a caller arriving at the full
window is queued behind the existing waiter, and the roll/invariant parts are
instantiated at the same state. -/
theorem limiter_window_invariant_witness :
    (limiterRun ⟨3, 60000, 2, 30000⟩ initialLimiter
      [.arrival ⟨1, 0⟩, .arrival ⟨2, 0⟩, .windowRoll 60000]).count ≤ 3 ∧
    arrive ⟨3, 60000, 2, 30000⟩ demoFullLimiter ⟨9, 5⟩ =
      ({ demoFullLimiter with queue := demoFullLimiter.queue ++ [⟨9, 5⟩] },
        .queued 9) ∧
    (∀ (s' : LimiterState) (now : Nat),
      (ranIds (rollWindow ⟨3, 60000, 2, 30000⟩ s' now).2).IsPrefix
        ((liveQueue ⟨3, 60000, 2, 30000⟩ s' now).map Waiter.id) ∧
      (rollWindow ⟨3, 60000, 2, 30000⟩ s' now).1.queue
        = (liveQueue ⟨3, 60000, 2, 30000⟩ s' now).drop 3) :=
  limiter_window_invariant ⟨3, 60000, 2, 30000⟩ demoFullLimiter ⟨9, 5⟩
    [.arrival ⟨1, 0⟩, .arrival ⟨2, 0⟩, .windowRoll 60000] rfl (by decide)

/-- C6: rate-limited rejections.  A caller that can neither run (window full
or queue non-empty) nor be queued (queue at its bound) fails with the
rate-limited output and the state is unchanged, so the wrapped operation is
never invoked for it; a waiter whose wait exceeds the configured maximum at a
window roll receives the rate-limited error, is not among the waiters served,
and is removed from the queue; and the rate-limited error kind is distinct
from circuit-open and from every underlying failure. -/
theorem limiter_rate_limited (cfg : LimiterConfig) (s : LimiterState) (w : Waiter)
    (s' : LimiterState) (v : Waiter) (now : Nat)
    (hnorun : ¬(s.count < cfg.windowLimit ∧ s.queue = []))
    (hqfull : cfg.maxQueueDepth ≤ s.queue.length)
    (hv : v ∈ s'.queue)
    (ht : timedOut cfg now v = true) :
    arrive cfg s w = (s, .rateLimited w.id) ∧
    LimiterOutput.rateLimited v.id ∈ (rollWindow cfg s' now).2 ∧
    v ∉ (liveQueue cfg s' now).take cfg.windowLimit ∧
    v ∉ (rollWindow cfg s' now).1.queue ∧
    ProtectedError.rateLimited ≠ ProtectedError.circuitOpen ∧
    (∀ msg, ProtectedError.rateLimited ≠ ProtectedError.underlying msg) := by
  have hnotlive : v ∉ liveQueue cfg s' now := by
    intro hmem
    have := (List.mem_filter.mp hmem).2
    rw [ht] at this
    exact absurd this (by decide)
  refine ⟨?_, ?_, ?_, ?_, by decide, fun msg => by simp⟩
  · unfold arrive
    rw [if_neg hnorun, if_neg (by omega)]
  · show _ ∈ (s'.queue.filter (timedOut cfg now)).map
        (fun w => LimiterOutput.rateLimited w.id) ++
      ((liveQueue cfg s' now).take cfg.windowLimit).map
        (fun w => LimiterOutput.ran w.id)
    exact List.mem_append_left _
      (List.mem_map_of_mem _ (List.mem_filter.mpr ⟨hv, ht⟩))
  · intro hmem
    exact hnotlive (List.mem_of_mem_take hmem)
  · intro hmem
    have hmem' : v ∈ (liveQueue cfg s' now).drop cfg.windowLimit := hmem
    exact hnotlive (List.mem_of_mem_drop hmem')

/-- Witness for C6: queue bound 2 already reached, caller 9 rejected; waiter 7
(arrived at 0) has exceeded the 30000 ms maximum wait by time 40000. -/
theorem limiter_rate_limited_witness :
    arrive ⟨3, 60000, 2, 30000⟩ demoDepthLimiter ⟨9, 5⟩ =
      (demoDepthLimiter, .rateLimited 9) ∧
    LimiterOutput.rateLimited 7 ∈
      (rollWindow ⟨3, 60000, 2, 30000⟩ demoDepthLimiter 40000).2 ∧
    (⟨7, 0⟩ : Waiter) ∉
      (liveQueue ⟨3, 60000, 2, 30000⟩ demoDepthLimiter 40000).take 3 ∧
    (⟨7, 0⟩ : Waiter) ∉
      (rollWindow ⟨3, 60000, 2, 30000⟩ demoDepthLimiter 40000).1.queue ∧
    ProtectedError.rateLimited ≠ ProtectedError.circuitOpen ∧
    (∀ msg, ProtectedError.rateLimited ≠ ProtectedError.underlying msg) :=
  limiter_rate_limited ⟨3, 60000, 2, 30000⟩ demoDepthLimiter ⟨9, 5⟩
    demoDepthLimiter ⟨7, 0⟩ 40000 (by decide) (by decide) (by decide) (by decide)

/-- C7: order of checks in the facade.  For every protected call — whatever
the operation, its result type, the states and the configuration — the phase
trace is one of `[limiter]`, `[limiter, breaker]`,
`[limiter, breaker, operation]`: the rate limiter always decides first, the
breaker is consulted only after limiter admission, and the operation runs
only after the breaker admits.  In particular a rate-limited refusal consults
no breaker and a circuit-open refusal runs no operation. -/
theorem protectedCall_order {α : Type} (lcfg : LimiterConfig)
    (bcfg : BreakerConfig) (ls : LimiterState) (bs : BreakerState) (w : Waiter)
    (now : Nat) (op : Except String α) :
    ((protectedCall lcfg bcfg ls bs w now op).2.1 = [.limiterCheck] ∨
     (protectedCall lcfg bcfg ls bs w now op).2.1 = [.limiterCheck, .breakerCheck] ∨
     (protectedCall lcfg bcfg ls bs w now op).2.1
       = [.limiterCheck, .breakerCheck, .operationRun]) ∧
    ((protectedCall lcfg bcfg ls bs w now op).2.1.head? = some .limiterCheck) ∧
    ((protectedCall lcfg bcfg ls bs w now op).1 = .error .rateLimited →
      (protectedCall lcfg bcfg ls bs w now op).2.1 = [.limiterCheck]) ∧
    ((protectedCall lcfg bcfg ls bs w now op).1 = .error .circuitOpen →
      (protectedCall lcfg bcfg ls bs w now op).2.1
        = [.limiterCheck, .breakerCheck]) := by
  unfold protectedCall
  rcases harr : arrive lcfg ls w with ⟨ls', out⟩
  cases out with
  | rateLimited i => simp
  | ran i =>
    unfold breakerFire
    rcases hstart : onCallStart bcfg bs now with ⟨d, bs'⟩
    cases d <;> cases op <;> simp
  | queued i =>
    unfold breakerFire
    rcases hstart : onCallStart bcfg bs now with ⟨d, bs'⟩
    cases d <;> cases op <;> simp

/-- C10: `selectTopComments` returns exactly `min maxCount comments.length`
comments, each of which is an element of the input list, ordered by
non-increasing engagement score as computed by `calculateCommentScore`. -/
theorem selectTopComments_spec (now : Int) (comments : List Comment)
    (maxCount : Nat) :
    (selectTopComments now comments maxCount).length
      = min maxCount comments.length ∧
    (∀ c ∈ selectTopComments now comments maxCount, c ∈ comments) ∧
    (selectTopComments now comments maxCount).Pairwise
      (fun a b => calculateCommentScore now b ≤ calculateCommentScore now a) := by
  unfold selectTopComments
  by_cases hemp : comments.isEmpty
  · rw [if_pos hemp]
    rw [List.isEmpty_iff] at hemp
    subst hemp
    simp
  · rw [if_neg hemp]
    refine ⟨?_, ?_, ?_⟩
    · rw [List.length_take, List.length_mergeSort]
    · intro c hc
      have := List.mem_of_mem_take hc
      exact (List.mergeSort_perm comments (scoreGe now)).mem_iff.mp this
    · have hsorted : (comments.mergeSort (scoreGe now)).Pairwise
          (fun a b => scoreGe now a b = true) :=
        List.sorted_mergeSort
          (by
            intro a b c hab hbc
            simp only [scoreGe, decide_eq_true_eq] at hab hbc ⊢
            omega)
          (by
            intro a b
            simp only [scoreGe, Bool.or_eq_true, decide_eq_true_eq]
            omega)
          comments
      have htake := hsorted.sublist (List.take_sublist maxCount _)
      exact htake.imp (by
        intro a b h
        simpa [scoreGe, decide_eq_true_eq] using h)

/-- The head surviving a `dropWhile` fails the predicate. -/
theorem dropWhile_head_false {p : Char → Bool} {l : List Char} {c : Char}
    {t : List Char} (h : l.dropWhile p = c :: t) : p c = false := by
  induction l with
  | nil => simp at h
  | cons a l ih =>
    rw [List.dropWhile_cons] at h
    split at h
    · exact ih h
    · next hc =>
      injection h with h1 h2
      subst h1
      simpa using hc

/-- An element failing the predicate survives `dropWhile`. -/
theorem mem_dropWhile_of_false {p : Char → Bool} {c : Char} {l : List Char}
    (hm : c ∈ l) (hc : p c = false) : c ∈ l.dropWhile p := by
  induction l with
  | nil => simp at hm
  | cons a l ih =>
    rw [List.dropWhile_cons]
    split
    · next hp =>
      rcases List.mem_cons.mp hm with rfl | hm'
      · rw [hc] at hp; exact absurd hp (by simp)
      · exact ih hm'
    · exact hm

/-- `dropEndWhile` returns a prefix of its input. -/
theorem isPrefix_dropEndWhile (p : Char → Bool) (l : List Char) :
    dropEndWhile p l <+: l := by
  unfold dropEndWhile
  conv_rhs => rw [← List.reverse_reverse l]
  exact List.reverse_prefix.mpr (List.dropWhile_suffix p)

/-- A non-empty trimmed string starts with a non-whitespace character. -/
theorem jsTrim_head_false {l : List Char} {c : Char} {t : List Char}
    (h : jsTrim l = c :: t) : isJsWs c = false := by
  unfold jsTrim at h
  obtain ⟨rest, hrest⟩ := isPrefix_dropEndWhile isJsWs (l.dropWhile isJsWs)
  rw [h, List.cons_append] at hrest
  exact dropWhile_head_false hrest.symm

/-- A non-empty trimmed string ends with a non-whitespace character. -/
theorem jsTrim_last_false {l : List Char} {c : Char}
    (h : (jsTrim l).getLast? = some c) : isJsWs c = false := by
  unfold jsTrim dropEndWhile at h
  rw [List.getLast?_reverse] at h
  cases hd : (l.dropWhile isJsWs).reverse.dropWhile isJsWs with
  | nil => rw [hd] at h; simp at h
  | cons a t =>
    rw [hd] at h
    simp only [List.head?_cons, Option.some.injEq] at h
    subst h
    exact dropWhile_head_false hd

/-- Trimming never lengthens a string. -/
theorem jsTrim_length_le (l : List Char) : (jsTrim l).length ≤ l.length :=
  le_trans (isPrefix_dropEndWhile _ _).length_le (List.dropWhile_suffix _).length_le

/-- A string containing a non-whitespace character has a non-empty trim. -/
theorem jsTrim_ne_nil {l : List Char} {c : Char} (hm : c ∈ l)
    (hc : isJsWs c = false) : jsTrim l ≠ [] := by
  unfold jsTrim dropEndWhile
  rw [ne_eq, List.reverse_eq_nil_iff]
  intro hnil
  have h1 : c ∈ l.dropWhile isJsWs := mem_dropWhile_of_false hm hc
  have h2 : c ∈ (l.dropWhile isJsWs).reverse := List.mem_reverse.mpr h1
  have h3 : c ∈ (l.dropWhile isJsWs).reverse.dropWhile isJsWs :=
    mem_dropWhile_of_false h2 hc
  rw [hnil] at h3
  simp at h3

/-- Every piece surviving `cleanPieces` is a non-empty trim of at most 280
characters. -/
theorem cleanPieces_good (ps : List (List Char)) :
    ∀ t ∈ cleanPieces ps, trimmedTweet t := by
  intro t ht
  unfold cleanPieces at ht
  obtain ⟨hmem, hpred⟩ := List.mem_filter.mp ht
  obtain ⟨p, _, rfl⟩ := List.mem_map.mp hmem
  simp only [Bool.and_eq_true, decide_eq_true_eq] at hpred
  exact ⟨⟨p, rfl⟩, List.length_pos.mp hpred.1, hpred.2⟩

/-- Decomposition of a successful `matchLeadingNum`: the input is the digit
prefix, a period, one whitespace character, then the returned remainder. -/
theorem matchLeadingNum_eq {cs r : List Char} (h : matchLeadingNum cs = some r) :
    ∃ ds w, cs = ds ++ '.' :: w :: r ∧ isJsWs w = true := by
  unfold matchLeadingNum at h
  cases hdrop : cs.dropWhile Char.isDigit with
  | nil => rw [hdrop] at h; simp at h
  | cons p rest =>
    cases rest with
    | nil => rw [hdrop] at h; simp at h
    | cons w r' =>
      rw [hdrop] at h
      simp only [] at h
      split at h
      · exact absurd h (by simp)
      · split at h
        · next hpw =>
          simp only [Bool.and_eq_true, beq_iff_eq] at hpw
          obtain ⟨rfl, hw⟩ := hpw
          injection h with h'
          subst h'
          exact ⟨cs.takeWhile Char.isDigit, w, by
            rw [← hdrop, List.takeWhile_append_dropWhile], hw⟩
        · exact absurd h (by simp)

/-- Stripping the leading list marker from the first tweet preserves the
tweet shape: the remainder is non-empty (the original tweet ends in a
non-whitespace character, which the removed prefix cannot contain) and no
longer than the original. -/
theorem fixHead_good (xs : List (List Char))
    (hxs : ∀ u ∈ xs, trimmedTweet u) :
    ∀ t ∈ fixHead xs, trimmedTweet t := by
  intro t ht
  cases xs with
  | nil => simp [fixHead] at ht
  | cons hd rest =>
    have ht' : t ∈ (match matchLeadingNum hd with
        | some r => jsTrim r :: rest
        | none => hd :: rest) := ht
    clear ht
    cases hmatch : matchLeadingNum hd with
    | none =>
      rw [hmatch] at ht'
      exact hxs t ht'
    | some r =>
      rw [hmatch] at ht'
      rcases List.mem_cons.mp ht' with rfl | hmem
      · obtain ⟨ds, w, hcs, hw⟩ := matchLeadingNum_eq hmatch
        obtain ⟨⟨p, hp⟩, hne, hlen⟩ := hxs hd (List.mem_cons_self _ _)
        obtain ⟨cl, hcl⟩ : ∃ cl, hd.getLast? = some cl := by
          cases hg : hd.getLast? with
          | none => exact absurd (List.getLast?_eq_none_iff.mp hg) hne
          | some cl => exact ⟨cl, rfl⟩
        have hclws : isJsWs cl = false := by
          rw [hp] at hcl
          exact jsTrim_last_false hcl
        have hcl2 : (('.' : Char) :: w :: r).getLast? = some cl := by
          rw [hcs, List.getLast?_append_of_ne_nil _ (by simp)] at hcl
          exact hcl
        have hrne : r ≠ [] := by
          intro hrnil
          subst hrnil
          rw [List.getLast?_cons_cons] at hcl2
          simp only [List.getLast?_singleton, Option.some.injEq] at hcl2
          subst hcl2
          rw [hw] at hclws
          exact absurd hclws (by simp)
        have hlast_r : r.getLast? = some cl := by
          rw [List.getLast?_cons_cons, getLast?_cons_of_ne_nil _ _ hrne] at hcl2
          exact hcl2
        have hclmem : cl ∈ r := List.mem_of_mem_getLast? hlast_r
        refine ⟨⟨r, rfl⟩, jsTrim_ne_nil hclmem hclws, ?_⟩
        have hrlen : r.length ≤ hd.length := by
          rw [hcs]
          simp
          omega
        exact le_trans (jsTrim_length_le r) (le_trans hrlen hlen)
      · exact hxs t (List.mem_cons_of_mem _ hmem)

/-- Every tweet produced by strategy 1 has the tweet shape. -/
theorem parseStage1_good (result : List Char) :
    ∀ t ∈ parseStage1 result, trimmedTweet t := by
  intro t ht
  unfold parseStage1 at ht
  split at ht
  · exact cleanPieces_good _ t ht
  · simp at ht

/-- Every tweet produced by strategies 1–2 has the tweet shape. -/
theorem parseStage2_good (result : List Char) :
    ∀ t ∈ parseStage2 result, trimmedTweet t := by
  intro t ht
  unfold parseStage2 at ht
  split at ht
  · exact cleanPieces_good _ t ht
  · exact parseStage1_good result t ht

/-- Every tweet produced by strategies 1–3 has the tweet shape. -/
theorem parseStage3_good (result : List Char) :
    ∀ t ∈ parseStage3 result, trimmedTweet t := by
  intro t ht
  unfold parseStage3 at ht
  split at ht
  · exact fixHead_good _ (cleanPieces_good _) t ht
  · exact parseStage2_good result t ht

/-- Every tweet produced by the four strategies has the tweet shape. -/
theorem parseStage4_good (result : List Char) :
    ∀ t ∈ parseStage4 result, trimmedTweet t := by
  intro t ht
  unfold parseStage4 at ht
  split at ht
  · next hcond =>
    simp only [Bool.and_eq_true, Bool.not_eq_true', decide_eq_true_eq] at hcond
    rcases List.mem_singleton.mp ht with rfl
    refine ⟨⟨result, rfl⟩, ?_, hcond.2⟩
    intro hnil
    rw [hnil] at hcond
    exact absurd hcond.1.2 (by simp)
  · exact parseStage3_good result t ht

/-- C9: for every AI completion text and every requested thread length, the
tweet list `generateThreadInternal` parses out of the completion has at most
`threadLength` elements, and every element is non-empty, at most 280
characters long, and contains a non-whitespace character (whichever of the
four strategies produced it). -/
theorem generateThread_tweets_bounded (result : List Char) (threadLength : Nat) :
    (parseThread result threadLength).length ≤ threadLength ∧
    ∀ t ∈ parseThread result threadLength,
      t ≠ [] ∧ t.length ≤ 280 ∧ ∃ c ∈ t, isJsWs c = false := by
  constructor
  · unfold parseThread
    rw [List.length_take]
    exact Nat.min_le_left _ _
  · intro t ht
    have hmem : t ∈ parseStage4 result := List.mem_of_mem_take ht
    obtain ⟨⟨p, hp⟩, hne, hlen⟩ := parseStage4_good result t hmem
    refine ⟨hne, hlen, ?_⟩
    cases hc : t with
    | nil => exact absurd hc hne
    | cons c rest =>
      rw [hc] at hp
      exact ⟨c, by simp, jsTrim_head_false hp.symm⟩

end Flowz
